import Mathlib

/-!
Verification development for the Streamlit_FinMap repository.

The definitions below are a shallow embedding of the reconciliation core:

* `utils/validators.py` — `normalize_value`, `normalize_csv_data`,
  `validate_csv_hierarchy` (the metric-path composite-key check);
* `components/preview.py` — `generate_changes_from_csv` (the diff engine)
  and `execute_merge_operation` (the merge executor);
* `components/adjustments_helper.py` — `execute_adjustment_upsert_merge`;
* `utils/cascade_helper.py` — `build_metric_tree_from_df`,
  `build_cashflow_tree_from_df`, `get_options_from_tree`.

Pandas/Python cell values are modelled by `RawVal` (missing value, string,
or integer).  Python string primitives (`str.strip`, `str.lower`) are
modelled at the character-list level so that every definition evaluates
inside the kernel.
-/

namespace FinMap

/-- Model of Python `str.strip()`: drop whitespace from both ends. -/
def pyStrip (s : String) : String :=
  ⟨((s.data.dropWhile Char.isWhitespace).reverse.dropWhile Char.isWhitespace).reverse⟩

/-- Model of Python `str.lower()`. -/
def pyLower (s : String) : String := ⟨s.data.map Char.toLower⟩

/-- A raw cell value as seen by pandas: missing (`None`/`NaN`), a string,
or an integer. -/
inductive RawVal where
  | na
  | str (s : String)
  | int (n : Int)
deriving DecidableEq, Repr

/-- Python `str(value)` for the non-missing cases. -/
def rawToString : RawVal → String
  | .na => ""
  | .str s => s
  | .int n => toString n

/-- `validators.normalize_value`: `None`/`NaN` → `''`; otherwise
`str(value).strip()`, with the literal strings `'nan'`/`'none'`/`'null'`
(case-insensitive) collapsed to `''`. -/
def normalize_value (v : RawVal) : String :=
  match v with
  | .na => ""
  | _ =>
    let strVal := pyStrip (rawToString v)
    if (["nan", "none", "null"] : List String).contains (pyLower strVal) then ""
    else strVal

/-- Value of a digit run, most significant first (empty run = 0,
matching the integer part of a float literal such as `.5`). -/
def digitsToNat (cs : List Char) : Nat :=
  cs.foldl (fun acc c => 10 * acc + (c.toNat - 48)) 0

/-- `pd.to_numeric` magnitude parser, truncated to the integer part the
way `.astype(int)` truncates: digits, optionally followed by `.` and a
fraction.  Returns `none` for non-numeric text. -/
def parseMagnitude (cs : List Char) : Option Nat :=
  let intPart := cs.takeWhile (fun c => c ≠ '.')
  let rest := cs.dropWhile (fun c => c ≠ '.')
  match rest with
  | [] =>
    if intPart ≠ [] ∧ intPart.all Char.isDigit then some (digitsToNat intPart) else none
  | _ :: fracPart =>
    if (intPart ≠ [] ∨ fracPart ≠ []) ∧ intPart.all Char.isDigit ∧ fracPart.all Char.isDigit
    then some (digitsToNat intPart) else none

/-- `pd.to_numeric(value, errors='coerce')` followed by `.astype(int)`:
missing and non-numeric values have no numeric reading (`none`). -/
def pdToNumericInt : RawVal → Option Int
  | .na => none
  | .int n => some n
  | .str s =>
    match (pyStrip s).data with
    | '-' :: cs => (parseMagnitude cs).map (fun n => -(n : Int))
    | '+' :: cs => (parseMagnitude cs).map (fun n => (n : Int))
    | cs => (parseMagnitude cs).map (fun n => (n : Int))

/-- Primary-key normalization in `validators.normalize_csv_data`:
`pd.to_numeric(df[pk], errors='coerce').fillna(0).astype(int)`. -/
def normalizePrimaryKey (v : RawVal) : Int := (pdToNumericInt v).getD 0

/-- `validators.normalize_csv_data` on one row: the primary-key loop
casts each key column to an integer, then the mapping-column loop applies
`normalize_value`. -/
def normalize_csv_data (row : List (String × RawVal))
    (primaryKeys mappingCols : List String) : List (String × RawVal) :=
  let afterPk := row.map (fun cv =>
    if primaryKeys.contains cv.1 then (cv.1, RawVal.int (normalizePrimaryKey cv.2)) else cv)
  afterPk.map (fun cv =>
    if mappingCols.contains cv.1 then (cv.1, RawVal.str (normalize_value cv.2)) else cv)

/-!  ## Diff engine (`components/preview.py`, `generate_changes_from_csv`)

The engine normalizes the baseline with `fillna("").astype(str).str.strip()`
and re-normalizes each compared side in the loop with
`"" if pd.isna(v) or v == "" else str(v).strip()`.  Both collapse to the
single map `normStr` below (stripping is idempotent, and the second pass
is applied to the already-stripped baseline strings). -/

/-- The `fillna('').astype(str).str.strip()` normalization used by the
diff engine and the cascade builders. -/
def normStr : RawVal → String
  | .na => ""
  | .str s => pyStrip s
  | .int n => toString n

/-- One candidate or baseline row: composite primary-key values plus the
tracked (mapping) columns. -/
structure DataRow where
  pk : List Int
  fields : List (String × RawVal)
deriving DecidableEq, Repr

/-- Column access on a row (columns the caller tracks are present). -/
def DataRow.get (r : DataRow) (col : String) : RawVal :=
  match r.fields.lookup col with
  | some v => v
  | none => .na

/-- Sentinel rendering of a blank side of a diff. -/
def dispVal (s : String) : String := if s = "" then "[NULL/Blank]" else s

/-- Per-field comparison of the diff engine: the `_old` side is `NaN`
(hence `""`) when the left-join found no baseline row; a `FieldDiff` is
produced exactly when the normalized sides differ. -/
def fieldDiff (baseline? : Option DataRow) (cand : DataRow) (col : String) :
    Option (String × String) :=
  let oldStr := match baseline? with
    | none => ""
    | some b => normStr (b.get col)
  let newStr := normStr (cand.get col)
  if oldStr ≠ newStr then some (dispVal oldStr, dispVal newStr) else none

/-- `{primary_keys, changed_fields, full_row}` of one change. -/
structure ChangeRecord where
  primaryKeys : List Int
  changedFields : List (String × String × String)
  fullRow : List (String × RawVal)
deriving DecidableEq, Repr

/-- Per-row body of the diff loop: collect the field diffs in
mapping-column order; emit a record only when at least one exists.
`fullRow` holds the candidate's raw new values per mapping column. -/
def rowChange (baseline? : Option DataRow) (cand : DataRow)
    (mappingCols : List String) : Option ChangeRecord :=
  let diffs := mappingCols.filterMap (fun col =>
    (fieldDiff baseline? cand col).map (fun p => (col, p.1, p.2)))
  if diffs.isEmpty then none
  else some ⟨cand.pk, diffs, mappingCols.map (fun col => (col, cand.get col))⟩

/-- The `groupby(primary_keys).agg('first')` plus left-join pair: the
comparison target of a candidate key is the first baseline row with that
key, if any. -/
def findBaseline (origRows : List DataRow) (k : List Int) : Option DataRow :=
  origRows.find? (fun r => r.pk == k)

/-- `preview.generate_changes_from_csv`: diff every candidate row against
the baseline grouped by composite key and keep the rows with changes. -/
def generate_changes_from_csv (newRows origRows : List DataRow)
    (mappingCols : List String) : List ChangeRecord :=
  newRows.filterMap (fun c => rowChange (findBaseline origRows c.pk) c mappingCols)

/-!  ## Merge executor (`preview.execute_merge_operation`,
`adjustments_helper.execute_adjustment_upsert_merge`)

The store is abstracted by the keys present in the target table plus
fault switches for the staging write, the merge statement and the
temp-table drop, and a flag saying whether the merge result metadata
carries the inserted/updated counts. -/

/-- Abstract store behaviour, parameterized by the match-key type. -/
structure StoreBehavior (κ : Type) where
  targetKeys : List κ
  stageErr : Option String
  mergeErr : Option String
  dropErr : Option String
  reportsCounts : Bool

/-- Number of staged keys that match a target row. -/
def matchedCount [BEq κ] (target keys : List κ) : Nat :=
  (keys.filter (fun k => target.contains k)).length

/-- Number of staged keys with no target match. -/
def unmatchedCount [BEq κ] (target keys : List κ) : Nat :=
  (keys.filter (fun k => !target.contains k)).length

/-- Result tuple `(success, message, inserts, updates)` of
`execute_merge_operation`, plus whether the temp-table drop was issued. -/
structure MergeOutcome where
  success : Bool
  message : String
  inserts : Nat
  updates : Nat
  cleanupAttempted : Bool
deriving DecidableEq, Repr

/-- Success-message assembly of `execute_merge_operation`. -/
def mergeMessage (inserts updates : Nat) : String :=
  let msgs := (if inserts > 0 then ["Inserted " ++ toString inserts ++ " row(s)"] else [])
      ++ (if updates > 0 then ["Updated " ++ toString updates ++ " row(s)"] else [])
  if msgs.isEmpty then "No changes" else String.intercalate " | " msgs

/-- `preview.execute_merge_operation`: stage the change rows, run one
conditional `MERGE` (insert clause only when `use_upsert`), read counts
from the result metadata (0 when absent), fall back to `updates =
len(changes)` whenever both counts are 0, and drop the temp table; any
exception is caught, cleanup is re-attempted, and the original message is
returned with counts 0/0. -/
def execute_merge_operation (st : StoreBehavior (List Int))
    (changes : List ChangeRecord) (useUpsert : Bool) : MergeOutcome :=
  if changes.isEmpty then ⟨true, "No changes to process", 0, 0, false⟩
  else
    match st.stageErr with
    | some e => ⟨false, "Error during merge: " ++ e, 0, 0, true⟩
    | none =>
      match st.mergeErr with
      | some e => ⟨false, "Error during merge: " ++ e, 0, 0, true⟩
      | none =>
        let keys := changes.map (fun c => c.primaryKeys)
        let inserts :=
          if st.reportsCounts ∧ useUpsert then unmatchedCount st.targetKeys keys else 0
        let updates0 := if st.reportsCounts then matchedCount st.targetKeys keys else 0
        let updates := if inserts = 0 ∧ updates0 = 0 then changes.length else updates0
        match st.dropErr with
        | some e => ⟨false, "Error during merge: " ++ e, 0, 0, true⟩
        | none => ⟨true, mergeMessage inserts updates, inserts, updates, true⟩

/-- Full composite identity of an adjustment row: primary keys plus the
`PERIOD` and `ADJ_TYPE` discriminators the adjustment merge matches on. -/
abbrev AdjKey := List Int × String × String

/-- Result tuple `(success, insert_count, update_count, error_message)` of
`execute_adjustment_upsert_merge`, plus whether the drop was issued. -/
structure AdjOutcome where
  success : Bool
  inserts : Nat
  updates : Nat
  errMsg : Option String
  cleanupAttempted : Bool
deriving DecidableEq, Repr

/-- `adjustments_helper.execute_adjustment_upsert_merge`: same
stage/merge/drop protocol keyed on `AdjKey`; counts come straight from
the result metadata (no zero-count fallback here); failures return
`(False, 0, 0, str(e))` after best-effort cleanup. -/
def execute_adjustment_upsert_merge (st : StoreBehavior AdjKey)
    (rowKeys : List AdjKey) (upsertMode : Bool) : AdjOutcome :=
  if rowKeys.isEmpty then ⟨true, 0, 0, none, false⟩
  else
    match st.stageErr with
    | some e => ⟨false, 0, 0, some e, true⟩
    | none =>
      match st.mergeErr with
      | some e => ⟨false, 0, 0, some e, true⟩
      | none =>
        let inserts :=
          if st.reportsCounts ∧ upsertMode then unmatchedCount st.targetKeys rowKeys else 0
        let updates := if st.reportsCounts then matchedCount st.targetKeys rowKeys else 0
        match st.dropErr with
        | some e => ⟨false, 0, 0, some e, true⟩
        | none => ⟨true, inserts, updates, none, true⟩

/-!  ## Cascade trees (`utils/cascade_helper.py`) -/

/-- One cascade node: `{'options': [...], 'children': {...}}`.  The
children dict is modelled as an insertion-ordered association list. -/
inductive Tree : Type where
  | mk : List String → List (String × Tree) → Tree
deriving Repr

/-- The node's option list. -/
def Tree.options : Tree → List String
  | .mk o _ => o

/-- The node's children mapping. -/
def Tree.children : Tree → List (String × Tree)
  | .mk _ c => c

/-- A fresh `{'options': set(), 'children': {}}` node. -/
def emptyNode : Tree := .mk [] []

/-- Dict lookup on the children association list. -/
def lookupChild : List (String × Tree) → String → Option Tree
  | [], _ => none
  | (k, c) :: rest, v => if k = v then some c else lookupChild rest v

/-- Dict store: replace the entry in place, or append a new key. -/
def setChild : List (String × Tree) → String → Tree → List (String × Tree)
  | [], v, c => [(v, c)]
  | (k, c0) :: rest, v, c =>
    if k = v then (k, c) :: rest else (k, c0) :: setChild rest v c

/-- `options.add(value)` on the set modelled as a duplicate-free list. -/
def insertOpt (l : List String) (v : String) : List String :=
  if v ∈ l then l else l ++ [v]

/-- The per-row walk of the builder loop: at each level add the value to
the node's options, create the child if absent, and descend. -/
def insertPath : Tree → List String → Tree
  | t, [] => t
  | t, v :: rest =>
    let base := match lookupChild t.children v with
      | some c => c
      | none => emptyNode
    Tree.mk (insertOpt t.options v) (setChild t.children v (insertPath base rest))

/-- Lexicographic-by-code-point comparison of character lists, the order
Python's `sorted` uses on strings. -/
def lexLe : List Char → List Char → Bool
  | [], _ => true
  | _ :: _, [] => false
  | a :: as, b :: bs =>
    if a.toNat < b.toNat then true
    else if b.toNat < a.toNat then false
    else lexLe as bs

/-- Python `s1 <= s2` on strings. -/
def strLe (a b : String) : Bool := lexLe a.data b.data

/-- Sorted insertion used to model Python `sorted`. -/
def insertSorted (x : String) : List String → List String
  | [] => [x]
  | y :: ys => if strLe x y then x :: y :: ys else y :: insertSorted x ys

/-- Model of Python `sorted` on a list of strings. -/
def sortStrings : List String → List String
  | [] => []
  | x :: xs => insertSorted x (sortStrings xs)

/-- `convert_and_sort` on one options set: blank forced first when
present, the non-blank values sorted. -/
def sortOptions (l : List String) : List String :=
  if "" ∈ l then "" :: sortStrings (l.filter (fun o => o ≠ ""))
  else sortStrings (l.filter (fun o => o ≠ ""))

mutual

/-- The recursive `convert_and_sort` pass over the whole tree. -/
def sortTree : Tree → Tree
  | .mk opts ch => .mk (sortOptions opts) (sortChildren ch)

/-- `convert_and_sort` over the children values. -/
def sortChildren : List (String × Tree) → List (String × Tree)
  | [] => []
  | (k, c) :: rest => (k, sortTree c) :: sortChildren rest

end

/-- `cascade_helper.build_metric_tree_from_df`: normalize the six
`METRIC_L*` cells of every row with `fillna('').astype(str).str.strip()`,
insert each row's level path, then run `convert_and_sort`. -/
def build_metric_tree_from_df (rows : List (List RawVal)) : Tree :=
  sortTree (rows.foldl (fun t r => insertPath t ((r.map normStr).take 6)) emptyNode)

/-- `cascade_helper.build_cashflow_tree_from_df`: the same construction
over the three `CASHFLOW_L*` cells. -/
def build_cashflow_tree_from_df (rows : List (List RawVal)) : Tree :=
  sortTree (rows.foldl (fun t r => insertPath t ((r.map normStr).take 3)) emptyNode)

/-- `cascade_helper.get_options_from_tree`: walk the children links for
each parent value (normalized the same way the builder normalizes cells);
a missing link yields `[]`, otherwise the terminal node's options. -/
def get_options_from_tree (t : Tree) (parentValues : List RawVal) : List String :=
  match parentValues with
  | [] => t.options
  | p :: ps =>
    match lookupChild t.children (normStr p) with
    | none => []
    | some c => get_options_from_tree c ps

/-!  ## Composite-path validation (`validators.validate_csv_hierarchy`) -/

/-- `'|'`-join of the level cells, as in
`df['METRIC_L1'] + '|' + ... + df['METRIC_L6']`. -/
def pathKey : List String → String
  | [] => ""
  | [x] => x
  | x :: xs => x ++ "|" ++ pathKey xs

/-- The `_METRIC_PATH` composite key of one normalized row (its six
metric-level cells). -/
def metricPathKey (cells : List String) : String := pathKey (cells.take 6)

/-- The set of valid metric paths built from the normalized hierarchy. -/
def validMetricPaths (hier : List (List String)) : List String :=
  hier.map metricPathKey

/-- The `csv_df['_METRIC_PATH'].isin(valid_metric_paths)` test for one
normalized candidate row. -/
def metricPathValid (row : List String) (hier : List (List String)) : Bool :=
  (validMetricPaths hier).contains (metricPathKey row)

/-- The metric cascade tree built from the already-normalized hierarchy
rows (the level-by-level walk the spec describes validates against it). -/
def treeFromNormalizedRows (hier : List (List String)) : Tree :=
  build_metric_tree_from_df (hier.map (fun r => r.map RawVal.str))

/-- The level-by-level cascade walk: every level value of the row occurs
among the options the tree offers after narrowing by the preceding
values. -/
def walkFindsRow (t : Tree) (row : List String) : Prop :=
  ∀ k, k < row.length →
    row.getD k "" ∈ get_options_from_tree t ((row.take k).map RawVal.str)

instance (t : Tree) (row : List String) : Decidable (walkFindsRow t row) := by
  unfold walkFindsRow; infer_instance

/-!  ## Structural predicates used by the theorems -/

/-- `P` holds at every node of the tree. -/
inductive AllNodes (P : Tree → Prop) : Tree → Prop where
  | mk : ∀ opts ch, P (.mk opts ch) →
      (∀ k c, (k, c) ∈ ch → AllNodes P c) → AllNodes P (.mk opts ch)

/-- The path is present in the tree: each value is offered at its node
and has a child link to descend into. -/
inductive PathIn : Tree → List String → Prop where
  | nil (t : Tree) : PathIn t []
  | cons {t c : Tree} {vs : List String} (v : String) :
      v ∈ t.options → lookupChild t.children v = some c → PathIn c vs →
      PathIn t (v :: vs)

/-- Strict lexicographic-by-code-point comparison, Python `s1 < s2`. -/
def lexLt : List Char → List Char → Bool
  | [], [] => false
  | [], _ :: _ => true
  | _ :: _, [] => false
  | a :: as, b :: bs =>
    if a.toNat < b.toNat then true
    else if b.toNat < a.toNat then false
    else lexLt as bs

/-- Python `s1 < s2` on strings. -/
def strLt (a b : String) : Bool := lexLt a.data b.data

/-- The blank-first sorted shape of a converted options list: blank, if
present, sits at the head, and the non-blank values strictly increase. -/
def BlankFirstSorted (l : List String) : Prop :=
  ("" ∈ l → l.head? = some "") ∧
  List.Chain' (fun a b => strLt a b = true) (l.filter (fun o => o ≠ ""))

/-- A node offers a value if and only if it has a child for it. -/
def OptKeysEq (t : Tree) : Prop :=
  ∀ v, v ∈ t.options ↔ v ∈ t.children.map Prod.fst

/-- The pure walk of already-normalized parent values; the lemmas relate
`get_options_from_tree` to it. -/
def getOptionsStr : Tree → List String → List String
  | t, [] => t.options
  | t, v :: vs =>
    match lookupChild t.children v with
    | none => []
    | some c => getOptionsStr c vs

/-!  ## Helper lemmas -/

theorem dispVal_ne_empty (s : String) : dispVal s ≠ "" := by
  unfold dispVal
  split
  · decide
  · assumption

theorem rowChange_some (b? : Option DataRow) (c : DataRow) (cols : List String)
    (rec : ChangeRecord) (h : rowChange b? c cols = some rec) :
    rec.primaryKeys = c.pk ∧
    rec.changedFields =
      cols.filterMap (fun col => (fieldDiff b? c col).map (fun p => (col, p.1, p.2))) := by
  unfold rowChange at h
  simp only [] at h
  split at h
  · exact absurd h (by simp)
  · cases h
    exact ⟨rfl, rfl⟩

theorem mem_changedFields (b? : Option DataRow) (c : DataRow) (cols : List String)
    (rec : ChangeRecord) (col bf af : String) (h : rowChange b? c cols = some rec)
    (hm : (col, bf, af) ∈ rec.changedFields) :
    col ∈ cols ∧ fieldDiff b? c col = some (bf, af) := by
  rw [(rowChange_some b? c cols rec h).2] at hm
  rcases List.mem_filterMap.mp hm with ⟨col', hcol', heq⟩
  rcases Option.map_eq_some'.mp heq with ⟨p, hp, hpe⟩
  obtain ⟨pb, pa⟩ := p
  simp only [Prod.mk.injEq] at hpe
  obtain ⟨rfl, rfl, rfl⟩ := hpe
  exact ⟨hcol', hp⟩

theorem changedFields_mem (b? : Option DataRow) (c : DataRow) (cols : List String)
    (rec : ChangeRecord) (col bf af : String) (h : rowChange b? c cols = some rec)
    (hcol : col ∈ cols) (hd : fieldDiff b? c col = some (bf, af)) :
    (col, bf, af) ∈ rec.changedFields := by
  rw [(rowChange_some b? c cols rec h).2]
  exact List.mem_filterMap.mpr ⟨col, hcol, by rw [hd]; rfl⟩

theorem rowChange_eq_none_iff (b? : Option DataRow) (c : DataRow) (cols : List String) :
    rowChange b? c cols = none ↔ ∀ col ∈ cols, fieldDiff b? c col = none := by
  unfold rowChange
  simp only []
  split
  · next hemp =>
    rw [List.isEmpty_iff, List.filterMap_eq_nil_iff] at hemp
    simp only [true_iff]
    intro col hcol
    have := hemp _ hcol
    simpa using this
  · next hemp =>
    constructor
    · intro h
      exact absurd h (by simp)
    · intro h
      exfalso
      refine hemp ?_
      rw [List.isEmpty_iff, List.filterMap_eq_nil_iff]
      intro col hcol
      rw [h col hcol]
      rfl


theorem fieldDiff_eq_of_norm (b c : DataRow) (col : String)
    (h : normStr (b.get col) = normStr (c.get col)) : fieldDiff (some b) c col = none := by
  unfold fieldDiff
  simp [h]

theorem fieldDiff_noBaseline (cand : DataRow) (col : String) :
    fieldDiff none cand col =
      if normStr (cand.get col) = "" then none
      else some ("[NULL/Blank]", normStr (cand.get col)) := by
  unfold fieldDiff dispVal
  by_cases h : normStr (cand.get col) = ""
  · simp [h]
  · have h2 : ("" : String) ≠ normStr (cand.get col) := Ne.symm h
    simp [h, h2]

theorem rowChange_isSome_iff (b? : Option DataRow) (c : DataRow) (cols : List String) :
    (rowChange b? c cols).isSome = true ↔ ∃ col ∈ cols, fieldDiff b? c col ≠ none := by
  rw [Option.isSome_iff_ne_none, ne_eq, rowChange_eq_none_iff]
  push_neg
  rfl

/-!  ## Claims about the diff engine -/

/-- C3: idempotence of diff after apply.  If every candidate's composite
key finds a baseline row whose tracked fields all agree after
normalization (the state an applied change set leaves behind), the diff
engine returns an empty change list; and a row yields a Change Record if
and only if at least one Field Diff exists for it. -/
theorem C3_diff_idempotence :
    (∀ (cands origRows : List DataRow) (cols : List String),
      (∀ c ∈ cands, ∃ b, findBaseline origRows c.pk = some b ∧
        ∀ col ∈ cols, normStr (b.get col) = normStr (c.get col)) →
      generate_changes_from_csv cands origRows cols = []) ∧
    (∀ (b? : Option DataRow) (c : DataRow) (cols : List String),
      (rowChange b? c cols).isSome = true ↔ ∃ col ∈ cols, fieldDiff b? c col ≠ none) := by
  refine ⟨?_, rowChange_isSome_iff⟩
  intro cands origRows cols H
  unfold generate_changes_from_csv
  rw [List.filterMap_eq_nil_iff]
  intro c hc
  rcases H c hc with ⟨b, hb, hfields⟩
  rw [hb, rowChange_eq_none_iff]
  intro col hcol
  exact fieldDiff_eq_of_norm b c col (hfields col hcol)

/-- Witness for C3 at a concrete candidate/baseline pair whose values
differ in raw form but agree after normalization. -/
theorem C3_diff_idempotence_witness :
    generate_changes_from_csv
      [⟨[7], [("AMOUNT", .str " 150.0 ")]⟩]
      [⟨[7], [("AMOUNT", .str "150.0")]⟩]
      ["AMOUNT"] = [] := by
  refine C3_diff_idempotence.1 _ _ _ ?_
  intro c hc
  rw [List.mem_singleton] at hc
  subst hc
  exact ⟨⟨[7], [("AMOUNT", .str "150.0")]⟩, rfl, by decide⟩

theorem fieldDiff_some_eq (b? : Option DataRow) (c : DataRow) (col bf af : String)
    (h : fieldDiff b? c col = some (bf, af)) :
    bf = dispVal (b?.elim "" (fun b => normStr (b.get col))) ∧
    af = dispVal (normStr (c.get col)) := by
  cases b? with
  | none =>
    rw [fieldDiff_noBaseline] at h
    split at h
    · exact absurd h (by simp)
    · next hne =>
      injection h with h1
      rw [Prod.mk.injEq] at h1
      refine ⟨h1.1.symm, ?_⟩
      rw [← h1.2]
      unfold dispVal
      rw [if_neg hne]
  | some b =>
    unfold fieldDiff at h
    simp only [] at h
    split at h
    · injection h with h1
      rw [Prod.mk.injEq] at h1
      exact ⟨h1.1.symm, h1.2.symm⟩
    · exact absurd h (by simp)

/-- C7: blank-vs-blank is never a change for a matched pair; every
produced Field Diff side is non-empty; and a side whose normalized value
is blank is rendered as the `[NULL/Blank]` sentinel display value, never
as the empty string. -/
theorem C7_blank_symmetry :
    (∀ (b cand : DataRow) (col : String) (cols : List String) (rec : ChangeRecord),
      normStr (b.get col) = "" → normStr (cand.get col) = "" →
      rowChange (some b) cand cols = some rec →
      ∀ bf af, (col, bf, af) ∉ rec.changedFields) ∧
    (∀ (newRows origRows : List DataRow) (cols : List String)
        (rec : ChangeRecord), rec ∈ generate_changes_from_csv newRows origRows cols →
      ∀ d ∈ rec.changedFields, d.2.1 ≠ "" ∧ d.2.2 ≠ "") ∧
    (∀ (b? : Option DataRow) (c : DataRow) (cols : List String) (rec : ChangeRecord)
        (col bf af : String),
      rowChange b? c cols = some rec → (col, bf, af) ∈ rec.changedFields →
      (b?.elim "" (fun b => normStr (b.get col)) = "" → bf = "[NULL/Blank]") ∧
      (normStr (c.get col) = "" → af = "[NULL/Blank]") ∧
      bf ≠ "" ∧ af ≠ "") := by
  refine ⟨?_, ?_, ?_⟩
  · intro b cand col cols rec hb hc hrow bf af hmem
    have := (mem_changedFields _ _ _ _ _ _ _ hrow hmem).2
    rw [fieldDiff_eq_of_norm b cand col (hb.trans hc.symm)] at this
    exact absurd this (by simp)
  · intro newRows origRows cols rec hrec d hd
    rcases List.mem_filterMap.mp hrec with ⟨c, _, hrow⟩
    obtain ⟨col, bf, af⟩ := d
    have hfd := (mem_changedFields _ _ _ _ _ _ _ hrow hd).2
    obtain ⟨h1, h2⟩ := fieldDiff_some_eq _ _ _ _ _ hfd
    rw [h1, h2]
    exact ⟨dispVal_ne_empty _, dispVal_ne_empty _⟩
  · intro b? c cols rec col bf af hrow hmem
    have hfd := (mem_changedFields _ _ _ _ _ _ _ hrow hmem).2
    obtain ⟨h1, h2⟩ := fieldDiff_some_eq _ _ _ _ _ hfd
    refine ⟨?_, ?_, ?_, ?_⟩
    · intro hb
      rw [h1, hb]
      rfl
    · intro hc
      rw [h2, hc]
      rfl
    · rw [h1]
      exact dispVal_ne_empty _
    · rw [h2]
      exact dispVal_ne_empty _

/-- Witness for C7: a matched pair whose tracked field is `None` on one
side and whitespace on the other produces no record at all; the pair's
genuine blank-to-value change on column `A` has non-empty sides, and by
the sentinel conjunct its blank before-side is exactly `[NULL/Blank]`. -/
theorem C7_blank_symmetry_witness :
    (∀ bf af, ("B", bf, af) ∉
      (⟨[3], [("A", "[NULL/Blank]", "x")], [("A", .str "x"), ("B", .str "  ")]⟩ :
        ChangeRecord).changedFields) ∧
    (∀ d ∈ (⟨[3], [("A", "[NULL/Blank]", "x")], [("A", .str "x"), ("B", .str "  ")]⟩ :
        ChangeRecord).changedFields, d.2.1 ≠ "" ∧ d.2.2 ≠ "") ∧
    (("[NULL/Blank]" : String) = "[NULL/Blank]" ∧ ("x" : String) ≠ "") := by
  refine ⟨?_, ?_, ?_⟩
  · exact C7_blank_symmetry.1 ⟨[3], [("A", .na), ("B", .na)]⟩
      ⟨[3], [("A", .str "x"), ("B", .str "  ")]⟩ "B" ["A", "B"] _
      (by decide) (by decide) (by decide)
  · exact C7_blank_symmetry.2.1 [⟨[3], [("A", .str "x"), ("B", .str "  ")]⟩]
      [⟨[3], [("A", .na), ("B", .na)]⟩] ["A", "B"] _ (by decide)
  · have h3 := C7_blank_symmetry.2.2 (some ⟨[3], [("A", .na), ("B", .na)]⟩)
      ⟨[3], [("A", .str "x"), ("B", .str "  ")]⟩ ["A", "B"]
      ⟨[3], [("A", "[NULL/Blank]", "x")], [("A", .str "x"), ("B", .str "  ")]⟩
      "A" "[NULL/Blank]" "x" (by decide) (by decide)
    exact ⟨h3.1 (by decide), h3.2.2.2⟩

/-- C1 counterexample: candidate key `[1]` has no baseline row, tracked
column `"B"` normalizes to the empty string, and the produced Change
Record carries a Field Diff only for `"A"` — not for every tracked
column. -/
theorem C1_counterexample :
    normStr ((⟨[1], [("A", .str "x"), ("B", .str "")]⟩ : DataRow).get "B") = "" ∧
    findBaseline [] [1] = none ∧
    (generate_changes_from_csv [⟨[1], [("A", .str "x"), ("B", .str "")]⟩] [] ["A", "B"]).map
      (fun rec => rec.changedFields.map (fun d => d.1)) = [["A"]] := by decide

/-- C1 (amended): a candidate whose composite key has no baseline match
produces a Change Record with a `[NULL/Blank]`-to-value Field Diff for
exactly the tracked columns whose candidate value normalizes to a
non-empty string; blank-normalizing columns get no Field Diff, and a
candidate whose tracked values all normalize to blank produces no Change
Record at all. -/
theorem C1_insert_candidate_diffs :
    ∀ (newRows origRows : List DataRow) (cols : List String) (cand : DataRow),
      cand ∈ newRows → findBaseline origRows cand.pk = none →
      ((∃ col ∈ cols, normStr (cand.get col) ≠ "") →
        ∃ rec ∈ generate_changes_from_csv newRows origRows cols,
          rec.primaryKeys = cand.pk ∧
          (∀ col ∈ cols, normStr (cand.get col) ≠ "" →
            (col, "[NULL/Blank]", normStr (cand.get col)) ∈ rec.changedFields) ∧
          (∀ col ∈ cols, normStr (cand.get col) = "" →
            ∀ bf af, (col, bf, af) ∉ rec.changedFields)) ∧
      ((∀ col ∈ cols, normStr (cand.get col) = "") →
        rowChange (findBaseline origRows cand.pk) cand cols = none) := by
  intro newRows origRows cols cand hmem hnone
  constructor
  · rintro ⟨col0, hcol0, hne0⟩
    have hsome : (rowChange none cand cols).isSome = true := by
      rw [rowChange_isSome_iff]
      refine ⟨col0, hcol0, ?_⟩
      rw [fieldDiff_noBaseline, if_neg hne0]
      simp
    obtain ⟨rec, hrec⟩ := Option.isSome_iff_exists.mp hsome
    refine ⟨rec, ?_, ?_, ?_, ?_⟩
    · exact List.mem_filterMap.mpr ⟨cand, hmem, by rw [hnone]; exact hrec⟩
    · exact (rowChange_some _ _ _ _ hrec).1
    · intro col hcol hne
      refine changedFields_mem _ _ _ _ _ _ _ hrec hcol ?_
      rw [fieldDiff_noBaseline, if_neg hne]
    · intro col hcol hb bf af hmm
      have := (mem_changedFields _ _ _ _ _ _ _ hrec hmm).2
      rw [fieldDiff_noBaseline, if_pos hb] at this
      exact absurd this (by simp)
  · intro hall
    rw [hnone, rowChange_eq_none_iff]
    intro col hcol
    rw [fieldDiff_noBaseline, if_pos (hall col hcol)]

/-- Witness for C1 (amended) at the counterexample input. -/
theorem C1_insert_candidate_diffs_witness :
    ∃ rec ∈ generate_changes_from_csv [⟨[1], [("A", .str "x"), ("B", .str "")]⟩] [] ["A", "B"],
      rec.primaryKeys = [1] ∧
      (∀ col ∈ ["A", "B"],
        normStr ((⟨[1], [("A", .str "x"), ("B", .str "")]⟩ : DataRow).get col) ≠ "" →
        (col, "[NULL/Blank]",
          normStr ((⟨[1], [("A", .str "x"), ("B", .str "")]⟩ : DataRow).get col)) ∈
          rec.changedFields) ∧
      (∀ col ∈ ["A", "B"],
        normStr ((⟨[1], [("A", .str "x"), ("B", .str "")]⟩ : DataRow).get col) = "" →
        ∀ bf af, (col, bf, af) ∉ rec.changedFields) :=
  (C1_insert_candidate_diffs [⟨[1], [("A", .str "x"), ("B", .str "")]⟩] [] ["A", "B"]
    ⟨[1], [("A", .str "x"), ("B", .str "")]⟩ (List.mem_singleton.mpr rfl) rfl).1
    ⟨"A", by decide, by decide⟩

/-!  ## Claims about the merge executor -/

/-- C2: evaluation of the merge executor at the spec's second scenario,
update-only mode with a candidate key matching no target row and the
store reporting `{inserted: 0, updated: 0}`.  The zero-count fallback
(`if inserts == 0 and updates == 0: updates = len(changes)`) makes the
executor report one update instead of the documented `{0, 0}`. -/
theorem C2_update_only_zero_match_eval :
    execute_merge_operation ⟨[], none, none, none, true⟩
      [⟨[9], [("AMOUNT", "[NULL/Blank]", "150.0")], [("AMOUNT", .str "150.0")]⟩] false
    = ⟨true, "Updated 1 row(s)", 0, 1, true⟩ := by decide

/-- C9: on any staging or merge failure, both merge executors return a
failure carrying the original error message with counts 0/0 and attempt
the temp-table cleanup, whatever the drop fault switch says (a cleanup
failure never replaces the original message). -/
theorem C9_failure_cleanup :
    ∀ (st : StoreBehavior (List Int)) (sta : StoreBehavior AdjKey)
      (changes : List ChangeRecord) (rowKeys : List AdjKey)
      (useUpsert upsertMode : Bool) (e ea : String),
      (changes ≠ [] →
        st.stageErr = some e ∨ (st.stageErr = none ∧ st.mergeErr = some e) →
        execute_merge_operation st changes useUpsert =
          ⟨false, "Error during merge: " ++ e, 0, 0, true⟩) ∧
      (rowKeys ≠ [] →
        sta.stageErr = some ea ∨ (sta.stageErr = none ∧ sta.mergeErr = some ea) →
        execute_adjustment_upsert_merge sta rowKeys upsertMode =
          ⟨false, 0, 0, some ea, true⟩) := by
  intro st sta changes rowKeys useUpsert upsertMode e ea
  constructor
  · intro hne hcase
    have hni : changes.isEmpty = false := by simpa using hne
    rcases hcase with h | ⟨h1, h2⟩
    · simp [execute_merge_operation, hni, h]
    · simp [execute_merge_operation, hni, h1, h2]
  · intro hne hcase
    have hni : rowKeys.isEmpty = false := by simpa using hne
    rcases hcase with h | ⟨h1, h2⟩
    · simp [execute_adjustment_upsert_merge, hni, h]
    · simp [execute_adjustment_upsert_merge, hni, h1, h2]

/-- Witness for C9: a failing staging write on the main executor and a
failing merge statement on the adjustment executor, both with a drop
fault armed. -/
theorem C9_failure_cleanup_witness :
    execute_merge_operation ⟨[], some "boom", none, some "dropfail", true⟩
      [⟨[1], [("A", "[NULL/Blank]", "x")], [("A", .str "x")]⟩] true =
      ⟨false, "Error during merge: boom", 0, 0, true⟩ ∧
    execute_adjustment_upsert_merge ⟨[], none, some "mergefail", some "dropfail", true⟩
      [([2], "Jan-24", "Standard")] false = ⟨false, 0, 0, some "mergefail", true⟩ := by
  constructor
  · exact (C9_failure_cleanup ⟨[], some "boom", none, some "dropfail", true⟩
      ⟨[], none, some "mergefail", some "dropfail", true⟩
      [⟨[1], [("A", "[NULL/Blank]", "x")], [("A", .str "x")]⟩]
      [([2], "Jan-24", "Standard")] true false "boom" "mergefail").1 (by decide) (Or.inl rfl)
  · exact (C9_failure_cleanup ⟨[], some "boom", none, some "dropfail", true⟩
      ⟨[], none, some "mergefail", some "dropfail", true⟩
      [⟨[1], [("A", "[NULL/Blank]", "x")], [("A", .str "x")]⟩]
      [([2], "Jan-24", "Standard")] true false "boom" "mergefail").2 (by decide)
      (Or.inr ⟨rfl, rfl⟩)

/-!  ## Claim about normalization -/

/-- C8: `normalize_csv_data` sends each primary-key column to an integer
(null, blank and non-numeric values to 0) and each other tracked column
through `normalize_value`, which sends null/NaN and the literal strings
"nan"/"none"/"null" in any letter case to the empty string and trims
every other value. -/
theorem C8_normalization :
    (∀ (row : List (String × RawVal)) (pks cols : List String),
      (∀ c ∈ pks, cols.contains c = false) →
      normalize_csv_data row pks cols = row.map (fun cv =>
        if pks.contains cv.1 then (cv.1, RawVal.int (normalizePrimaryKey cv.2))
        else if cols.contains cv.1 then (cv.1, RawVal.str (normalize_value cv.2))
        else cv)) ∧
    normalizePrimaryKey .na = 0 ∧
    (∀ s : String, pyStrip s = "" → normalizePrimaryKey (.str s) = 0) ∧
    (∀ s : String, pdToNumericInt (.str s) = none → normalizePrimaryKey (.str s) = 0) ∧
    normalize_value .na = "" ∧
    (∀ s : String,
      (["nan", "none", "null"] : List String).contains (pyLower (pyStrip s)) = true →
      normalize_value (.str s) = "") ∧
    (∀ s : String,
      (["nan", "none", "null"] : List String).contains (pyLower (pyStrip s)) = false →
      normalize_value (.str s) = pyStrip s) := by
  refine ⟨?_, rfl, ?_, ?_, rfl, ?_, ?_⟩
  · intro row pks cols hdisj
    unfold normalize_csv_data
    rw [List.map_map]
    refine List.map_congr_left ?_
    intro cv _
    by_cases hp : cv.1 ∈ pks
    · have hc : cv.1 ∉ cols := by
        have := hdisj cv.1 hp
        simpa using this
      simp [hp, hc]
    · simp [hp]
  · intro s h
    unfold normalizePrimaryKey
    simp only [pdToNumericInt]
    rw [h]
    decide
  · intro s h
    unfold normalizePrimaryKey
    rw [h]
    rfl
  · intro s h
    have h' : pyLower (pyStrip s) = "nan" ∨ pyLower (pyStrip s) = "none" ∨
        pyLower (pyStrip s) = "null" := by simpa using h
    simp [normalize_value, rawToString]
    intro h1 h2 h3
    rcases h' with h4 | h4 | h4
    exacts [absurd h4 h1, absurd h4 h2, absurd h4 h3]
  · intro s h
    have h' : ¬ (pyLower (pyStrip s) = "nan" ∨ pyLower (pyStrip s) = "none" ∨
        pyLower (pyStrip s) = "null") := by simpa using h
    simp [normalize_value, rawToString]
    intro hor
    exact absurd hor h'

/-- Witness for C8 on concrete cells: a padded numeric key, a whitespace
key, a non-numeric key, a cased NaN literal, and an ordinary value. -/
theorem C8_normalization_witness :
    normalize_csv_data [("ID", .str " 7 "), ("METRIC_L1", .str " NaN ")] ["ID"] ["METRIC_L1"]
      = [("ID", .int 7), ("METRIC_L1", .str "")] ∧
    normalizePrimaryKey (.str "  ") = 0 ∧
    normalizePrimaryKey (.str "abc") = 0 ∧
    normalize_value (.str " NULL ") = "" ∧
    normalize_value (.str " x y ") = "x y" := by
  obtain ⟨h1, _h2, h3, h4, _h5, h6, h7⟩ := C8_normalization
  refine ⟨?_, h3 "  " (by decide), h4 "abc" (by decide), h6 " NULL " (by decide), ?_⟩
  · rw [h1 _ _ _ (by decide)]
    decide
  · rw [h7 " x y " (by decide)]
    decide

/-!  ## Basic lemmas about the tree operations -/

theorem sortTree_mk (opts : List String) (ch : List (String × Tree)) :
    sortTree (.mk opts ch) = .mk (sortOptions opts) (sortChildren ch) := rfl

theorem sortChildren_eq (ch : List (String × Tree)) :
    sortChildren ch = ch.map (fun kc => (kc.1, sortTree kc.2)) := by
  induction ch with
  | nil => rfl
  | cons kc rest ih => cases kc; simp [sortChildren, ih]

theorem lookupChild_setChild_self (ch : List (String × Tree)) (v : String) (c : Tree) :
    lookupChild (setChild ch v c) v = some c := by
  induction ch with
  | nil => simp [setChild, lookupChild]
  | cons kc rest ih =>
    obtain ⟨k, c0⟩ := kc
    by_cases h : k = v
    · simp [setChild, h, lookupChild]
    · simp [setChild, h, lookupChild, ih]

theorem lookupChild_setChild_ne (ch : List (String × Tree)) (w v : String) (c : Tree)
    (h : w ≠ v) : lookupChild (setChild ch w c) v = lookupChild ch v := by
  induction ch with
  | nil => simp [setChild, lookupChild, h]
  | cons kc rest ih =>
    obtain ⟨k, c0⟩ := kc
    by_cases hk : k = w
    · subst hk
      simp [setChild, lookupChild, h, ih]
    · simp [setChild, hk, lookupChild, ih]

theorem mem_setChild (ch : List (String × Tree)) (v : String) (c : Tree) (k : String)
    (c' : Tree) (h : (k, c') ∈ setChild ch v c) : (k, c') ∈ ch ∨ (k = v ∧ c' = c) := by
  induction ch with
  | nil =>
    simp [setChild] at h
    exact Or.inr h
  | cons kc rest ih =>
    obtain ⟨k0, c0⟩ := kc
    by_cases hk : k0 = v
    · subst hk
      simp only [setChild, if_pos rfl] at h
      rcases List.mem_cons.mp h with h | h
      · obtain ⟨rfl, rfl⟩ : k = k0 ∧ c' = c := by simpa using h
        exact Or.inr ⟨rfl, rfl⟩
      · exact Or.inl (List.mem_cons_of_mem _ h)
    · simp only [setChild, if_neg hk] at h
      rcases List.mem_cons.mp h with h | h
      · exact Or.inl (List.mem_cons.mpr (Or.inl h))
      · rcases ih h with h' | h'
        · exact Or.inl (List.mem_cons_of_mem _ h')
        · exact Or.inr h'

theorem mem_keys_setChild (ch : List (String × Tree)) (v : String) (c : Tree) (x : String) :
    x ∈ (setChild ch v c).map Prod.fst ↔ x ∈ ch.map Prod.fst ∨ x = v := by
  induction ch with
  | nil => simp [setChild]
  | cons kc rest ih =>
    obtain ⟨k0, c0⟩ := kc
    by_cases hk : k0 = v
    · subst hk
      simp only [setChild, if_pos rfl]
      simp
      tauto
    · simp only [setChild, if_neg hk]
      simp [ih]
      tauto

theorem lookupChild_mem (ch : List (String × Tree)) (v : String) (c : Tree)
    (h : lookupChild ch v = some c) : (v, c) ∈ ch := by
  induction ch with
  | nil => simp [lookupChild] at h
  | cons kc rest ih =>
    obtain ⟨k0, c0⟩ := kc
    by_cases hk : k0 = v
    · subst hk
      simp only [lookupChild, if_pos] at h
      cases h
      exact List.mem_cons_self _ _
    · simp only [lookupChild, if_neg hk] at h
      exact List.mem_cons_of_mem _ (ih h)

theorem lookupChild_isSome_iff (ch : List (String × Tree)) (v : String) :
    (lookupChild ch v).isSome = true ↔ v ∈ ch.map Prod.fst := by
  induction ch with
  | nil => simp [lookupChild]
  | cons kc rest ih =>
    obtain ⟨k0, c0⟩ := kc
    by_cases hk : k0 = v
    · subst hk
      simp [lookupChild]
    · simp [lookupChild, hk, ih, Ne.symm hk]

theorem lookupChild_map (ch : List (String × Tree)) (f : Tree → Tree) (v : String) :
    lookupChild (ch.map (fun kc => (kc.1, f kc.2))) v = (lookupChild ch v).map f := by
  induction ch with
  | nil => simp [lookupChild]
  | cons kc rest ih =>
    obtain ⟨k0, c0⟩ := kc
    by_cases hk : k0 = v
    · simp [lookupChild, hk]
    · simp [lookupChild, hk, ih]

theorem lookupChild_sortChildren (ch : List (String × Tree)) (v : String) :
    lookupChild (sortChildren ch) v = (lookupChild ch v).map sortTree := by
  rw [sortChildren_eq]
  exact lookupChild_map ch sortTree v

theorem mem_insertOpt (l : List String) (v x : String) :
    x ∈ insertOpt l v ↔ x ∈ l ∨ x = v := by
  unfold insertOpt
  split
  · next h =>
    constructor
    · exact Or.inl
    · rintro (hx | rfl)
      · exact hx
      · exact h
  · simp

theorem insertOpt_nodup (l : List String) (v : String) (h : l.Nodup) :
    (insertOpt l v).Nodup := by
  unfold insertOpt
  split
  · exact h
  · next hv =>
    refine h.append (List.nodup_singleton v) ?_
    intro a ha hav
    rw [List.mem_singleton] at hav
    subst hav
    exact hv ha

theorem mem_insertSorted (x y : String) (l : List String) :
    x ∈ insertSorted y l ↔ x = y ∨ x ∈ l := by
  induction l with
  | nil => simp [insertSorted]
  | cons z rest ih =>
    unfold insertSorted
    split
    · simp only [List.mem_cons]
    · simp only [List.mem_cons, ih]
      tauto

theorem insertSorted_perm (y : String) (l : List String) :
    List.Perm (insertSorted y l) (y :: l) := by
  induction l with
  | nil => simp [insertSorted]
  | cons z rest ih =>
    unfold insertSorted
    split
    · exact List.Perm.refl _
    · exact ((ih.cons z).trans (List.Perm.swap y z rest))

theorem sortStrings_perm (l : List String) : List.Perm (sortStrings l) l := by
  induction l with
  | nil => exact List.Perm.refl _
  | cons x rest ih =>
    unfold sortStrings
    exact (insertSorted_perm x (sortStrings rest)).trans (ih.cons x)

theorem mem_sortStrings (x : String) (l : List String) : x ∈ sortStrings l ↔ x ∈ l :=
  (sortStrings_perm l).mem_iff

theorem mem_sortOptions (l : List String) (x : String) :
    x ∈ sortOptions l ↔ x ∈ l := by
  unfold sortOptions
  split
  · next h =>
    by_cases hx : x = ""
    · subst hx
      simp [h]
    · simp [hx, mem_sortStrings, List.mem_filter]
  · next h =>
    by_cases hx : x = ""
    · subst hx
      simp [mem_sortStrings, List.mem_filter, h]
    · simp [hx, mem_sortStrings, List.mem_filter]

/-!  ## Order lemmas for the sorted options -/

theorem string_eq_of_data {a b : String} (h : a.data = b.data) : a = b := by
  cases a
  cases b
  exact congrArg String.mk h

theorem char_eq_of_toNat {a b : Char} (h : a.toNat = b.toNat) : a = b := by
  refine Char.ext ?_
  exact UInt32.toNat.inj h

theorem lexLe_total : ∀ (a b : List Char), lexLe a b = true ∨ lexLe b a = true
  | [], _ => Or.inl rfl
  | _ :: _, [] => Or.inr rfl
  | a :: as, b :: bs => by
    unfold lexLe
    rcases Nat.lt_trichotomy a.toNat b.toNat with h | h | h
    · left
      simp [h]
    · have h1 : ¬ a.toNat < b.toNat := by omega
      have h2 : ¬ b.toNat < a.toNat := by omega
      rcases lexLe_total as bs with ht | ht
      · left
        simp [h1, h2, ht]
      · right
        simp [h1, h2, ht]
    · right
      simp [h]

theorem strLe_total (a b : String) : strLe a b = true ∨ strLe b a = true :=
  lexLe_total a.data b.data

theorem lexLt_of_le_ne : ∀ (a b : List Char), lexLe a b = true → a ≠ b → lexLt a b = true
  | [], [], _, hne => absurd rfl hne
  | [], _ :: _, _, _ => rfl
  | _ :: _, [], hle, _ => by simp [lexLe] at hle
  | a :: as, b :: bs, hle, hne => by
    unfold lexLt
    unfold lexLe at hle
    rcases Nat.lt_trichotomy a.toNat b.toNat with h | h | h
    · simp [h]
    · have h1 : ¬ a.toNat < b.toNat := by omega
      have h2 : ¬ b.toNat < a.toNat := by omega
      have hab : a = b := char_eq_of_toNat h
      subst hab
      simp only [h1, h2, if_neg, if_false] at hle ⊢
      refine lexLt_of_le_ne as bs ?_ ?_
      · simpa [h1, h2] using hle
      · intro he
        exact hne (by rw [he])
    · have h1 : ¬ a.toNat < b.toNat := by omega
      simp [h1, h] at hle

theorem strLt_of_le_ne (a b : String) (hle : strLe a b = true) (hne : a ≠ b) :
    strLt a b = true :=
  lexLt_of_le_ne a.data b.data hle (fun h => hne (string_eq_of_data h))

theorem chain'_le_insertSorted (x : String) (l : List String)
    (h : List.Chain' (fun a b => strLe a b = true) l) :
    List.Chain' (fun a b => strLe a b = true) (insertSorted x l) := by
  induction l with
  | nil => simp [insertSorted]
  | cons y ys ih =>
    unfold insertSorted
    split
    · next hxy => exact List.chain'_cons.mpr ⟨hxy, h⟩
    · next hxy =>
      have hyx : strLe y x = true := by
        rcases strLe_total x y with ht | ht
        · exact absurd ht hxy
        · exact ht
      cases ys with
      | nil => simp [insertSorted, List.chain'_cons, hyx]
      | cons z zs =>
        have hyz : strLe y z = true := (List.chain'_cons.mp h).1
        have hrec := ih h.tail
        by_cases hxz : strLe x z = true
        · rw [show insertSorted x (z :: zs) = x :: z :: zs from by
            simp [insertSorted, hxz]]
          exact List.chain'_cons.mpr ⟨hyx, List.chain'_cons.mpr ⟨hxz, h.tail⟩⟩
        · rw [show insertSorted x (z :: zs) = z :: insertSorted x zs from by
            simp [insertSorted, hxz]]
          rw [show insertSorted x (z :: zs) = z :: insertSorted x zs from by
            simp [insertSorted, hxz]] at hrec
          exact List.chain'_cons.mpr ⟨hyz, hrec⟩

theorem chain'_le_sortStrings (l : List String) :
    List.Chain' (fun a b => strLe a b = true) (sortStrings l) := by
  induction l with
  | nil => simp [sortStrings]
  | cons x rest ih =>
    unfold sortStrings
    exact chain'_le_insertSorted x _ ih

theorem chain'_strict_of_nodup : ∀ (l : List String),
    List.Chain' (fun a b => strLe a b = true) l → l.Nodup →
    List.Chain' (fun a b => strLt a b = true) l
  | [], _, _ => List.chain'_nil
  | [_], _, _ => List.chain'_singleton _
  | x :: y :: rest, hc, hn => by
    rw [List.chain'_cons] at hc ⊢
    have hx := List.nodup_cons.mp hn
    refine ⟨strLt_of_le_ne _ _ hc.1 ?_, chain'_strict_of_nodup _ hc.2 hx.2⟩
    intro hxy
    exact hx.1 (hxy ▸ List.mem_cons_self y rest)

theorem blankFirstSorted_sortOptions (l : List String) (h : l.Nodup) :
    BlankFirstSorted (sortOptions l) := by
  have hm : ∀ x ∈ sortStrings (l.filter (fun o => o ≠ "")), x ≠ "" := by
    intro x hx
    have hx' := (mem_sortStrings _ _).mp hx
    simpa using (List.mem_filter.mp hx').2
  have hnodup : (sortStrings (l.filter (fun o => o ≠ ""))).Nodup :=
    ((sortStrings_perm _).nodup_iff).mpr (h.filter _)
  have hstrict :
      List.Chain' (fun a b => strLt a b = true)
        (sortStrings (l.filter (fun o => o ≠ ""))) :=
    chain'_strict_of_nodup _ (chain'_le_sortStrings _) hnodup
  have hself :
      (sortStrings (l.filter (fun o => o ≠ ""))).filter (fun o => o ≠ "") =
        sortStrings (l.filter (fun o => o ≠ "")) :=
    List.filter_eq_self.mpr (fun a ha => by simpa using hm a ha)
  unfold sortOptions
  split
  · refine ⟨fun _ => rfl, ?_⟩
    rw [show (("" :: sortStrings (l.filter (fun o => o ≠ ""))).filter (fun o => o ≠ "")) =
        sortStrings (l.filter (fun o => o ≠ "")) from by
      rw [List.filter_cons, if_neg (by simp)]
      exact hself]
    exact hstrict
  · next hbl =>
    constructor
    · intro hmem
      exact absurd ((mem_sortStrings _ _).mp hmem) (by
        intro hc
        simpa using (List.mem_filter.mp hc).2)
    · rw [hself]
      exact hstrict

/-!  ## Invariants of the built trees -/

theorem insertPath_cons (t : Tree) (v : String) (rest : List String) :
    insertPath t (v :: rest) =
      .mk (insertOpt t.options v)
        (setChild t.children v
          (insertPath ((lookupChild t.children v).getD emptyNode) rest)) := by
  cases t with
  | mk opts ch =>
    simp only [insertPath]
    cases lookupChild (Tree.mk opts ch).children v with
    | some c0 => rfl
    | none => rfl

theorem allNodes_inv (P : Tree → Prop) (t : Tree) (h : AllNodes P t) :
    P t ∧ ∀ k c, (k, c) ∈ t.children → AllNodes P c := by
  cases h with
  | mk opts ch hP hch => exact ⟨hP, hch⟩

theorem allNodes_empty (P : Tree → Prop) (h : P emptyNode) : AllNodes P emptyNode :=
  AllNodes.mk [] [] h (by simp)

theorem allNodes_nodup_insertPath : ∀ (p : List String) (t : Tree),
    AllNodes (fun t => t.options.Nodup) t →
    AllNodes (fun t => t.options.Nodup) (insertPath t p) := by
  intro p
  induction p with
  | nil =>
    intro t h
    exact h
  | cons v rest ih =>
    intro t h
    obtain ⟨hP, hch⟩ := allNodes_inv _ _ h
    rw [insertPath_cons]
    refine AllNodes.mk _ _ ?_ ?_
    · exact insertOpt_nodup _ _ hP
    · intro k c hkc
      rcases mem_setChild _ _ _ _ _ hkc with hin | ⟨hk, hc⟩
      · exact hch k c hin
      · subst hc
        refine ih _ ?_
        cases hbase : lookupChild t.children v with
        | some c0 => exact hch v c0 (lookupChild_mem _ _ _ hbase)
        | none => exact allNodes_empty _ (by simp [emptyNode, Tree.options])

theorem allNodes_optKeysEq_insertPath : ∀ (p : List String) (t : Tree),
    AllNodes OptKeysEq t → AllNodes OptKeysEq (insertPath t p) := by
  intro p
  induction p with
  | nil =>
    intro t h
    exact h
  | cons v rest ih =>
    intro t h
    obtain ⟨hP, hch⟩ := allNodes_inv _ _ h
    rw [insertPath_cons]
    refine AllNodes.mk _ _ ?_ ?_
    · intro x
      rw [show (Tree.mk (insertOpt t.options v)
          (setChild t.children v
            (insertPath ((lookupChild t.children v).getD emptyNode) rest))).options =
          insertOpt t.options v from rfl]
      rw [show (Tree.mk (insertOpt t.options v)
          (setChild t.children v
            (insertPath ((lookupChild t.children v).getD emptyNode) rest))).children =
          setChild t.children v
            (insertPath ((lookupChild t.children v).getD emptyNode) rest) from rfl]
      rw [mem_insertOpt, mem_keys_setChild, hP x]
    · intro k c hkc
      rcases mem_setChild _ _ _ _ _ hkc with hin | ⟨hk, hc⟩
      · exact hch k c hin
      · subst hc
        refine ih _ ?_
        cases hbase : lookupChild t.children v with
        | some c0 => exact hch v c0 (lookupChild_mem _ _ _ hbase)
        | none =>
          refine allNodes_empty _ ?_
          intro x
          simp [emptyNode, Tree.options, Tree.children]

theorem allNodes_foldl {α : Type} (P : Tree → Prop)
    (hstep : ∀ (p : List String) (t : Tree), AllNodes P t → AllNodes P (insertPath t p))
    (key : α → List String) :
    ∀ (rows : List α) (t : Tree), AllNodes P t →
      AllNodes P (rows.foldl (fun t r => insertPath t (key r)) t) := by
  intro rows
  induction rows with
  | nil =>
    intro t h
    exact h
  | cons r rest ih =>
    intro t h
    exact ih _ (hstep (key r) t h)

theorem allNodes_sortTree (P Q : Tree → Prop)
    (himp : ∀ opts ch, P (.mk opts ch) → Q (.mk (sortOptions opts) (sortChildren ch)))
    (t : Tree) (h : AllNodes P t) : AllNodes Q (sortTree t) := by
  induction h with
  | mk opts ch hP hch ih =>
    rw [sortTree_mk]
    refine AllNodes.mk _ _ (himp _ _ hP) ?_
    intro k c hkc
    rw [sortChildren_eq] at hkc
    rcases List.mem_map.mp hkc with ⟨⟨k0, c0⟩, hmem, heq⟩
    simp only [Prod.mk.injEq] at heq
    obtain ⟨rfl, rfl⟩ := heq
    exact ih _ _ hmem

theorem allNodes_optKeysEq_empty : AllNodes OptKeysEq emptyNode := by
  refine allNodes_empty _ ?_
  intro v
  simp [emptyNode, Tree.options, Tree.children]

theorem optKeysEq_sortStep (opts : List String) (ch : List (String × Tree))
    (hP : OptKeysEq (Tree.mk opts ch)) :
    OptKeysEq (Tree.mk (sortOptions opts) (sortChildren ch)) := by
  intro v
  have hv := hP v
  simp only [Tree.options, Tree.children] at hv ⊢
  rw [mem_sortOptions, sortChildren_eq, List.map_map, hv]
  constructor
  · intro h
    rcases List.mem_map.mp h with ⟨kc, hkc, heq⟩
    exact List.mem_map.mpr ⟨kc, hkc, heq⟩
  · intro h
    rcases List.mem_map.mp h with ⟨kc, hkc, heq⟩
    exact List.mem_map.mpr ⟨kc, hkc, heq⟩

theorem allNodes_optKeysEq_rawBuild {α : Type} (rows : List α) (key : α → List String) :
    AllNodes OptKeysEq (rows.foldl (fun t r => insertPath t (key r)) emptyNode) :=
  allNodes_foldl _ allNodes_optKeysEq_insertPath key rows emptyNode allNodes_optKeysEq_empty

theorem allNodes_optKeysEq_build {α : Type} (rows : List α) (key : α → List String) :
    AllNodes OptKeysEq (sortTree (rows.foldl (fun t r => insertPath t (key r)) emptyNode)) :=
  allNodes_sortTree _ _ optKeysEq_sortStep _ (allNodes_optKeysEq_rawBuild rows key)

/-!  ## Claims about the cascade tree shape -/

/-- C4: at every node of a built metric or cashflow tree, if the empty
string is among the options it is the first element, and the non-blank
options are strictly lexicographically increasing. -/
theorem C4_blank_first_ordering (rows : List (List RawVal)) :
    AllNodes (fun t => BlankFirstSorted t.options) (build_metric_tree_from_df rows) ∧
    AllNodes (fun t => BlankFirstSorted t.options) (build_cashflow_tree_from_df rows) := by
  have hempty : AllNodes (fun t => t.options.Nodup) emptyNode :=
    allNodes_empty _ (by simp [emptyNode, Tree.options])
  have himp : ∀ (opts : List String) (ch : List (String × Tree)),
      (Tree.mk opts ch).options.Nodup →
      BlankFirstSorted (Tree.mk (sortOptions opts) (sortChildren ch)).options := by
    intro opts ch hP
    exact blankFirstSorted_sortOptions opts hP
  constructor
  · exact allNodes_sortTree _ _ himp _
      (allNodes_foldl _ allNodes_nodup_insertPath
        (fun r : List RawVal => (r.map normStr).take 6) rows emptyNode hempty)
  · exact allNodes_sortTree _ _ himp _
      (allNodes_foldl _ allNodes_nodup_insertPath
        (fun r : List RawVal => (r.map normStr).take 3) rows emptyNode hempty)

/-- C10: at every node of a built metric or cashflow tree, the options
list and the keys of the children mapping hold the same values. -/
theorem C10_options_eq_child_keys (rows : List (List RawVal)) :
    AllNodes OptKeysEq (build_metric_tree_from_df rows) ∧
    AllNodes OptKeysEq (build_cashflow_tree_from_df rows) :=
  ⟨allNodes_optKeysEq_build rows (fun r => (r.map normStr).take 6),
   allNodes_optKeysEq_build rows (fun r => (r.map normStr).take 3)⟩

/-!  ## Path membership in built trees -/

theorem pathIn_insertPath_self : ∀ (p : List String) (t : Tree),
    PathIn (insertPath t p) p := by
  intro p
  induction p with
  | nil =>
    intro t
    exact PathIn.nil _
  | cons v rest ih =>
    intro t
    rw [insertPath_cons]
    refine PathIn.cons v ?_ (lookupChild_setChild_self _ _ _) (ih _)
    rw [show (Tree.mk (insertOpt t.options v)
        (setChild t.children v
          (insertPath ((lookupChild t.children v).getD emptyNode) rest))).options =
        insertOpt t.options v from rfl]
    rw [mem_insertOpt]
    exact Or.inr rfl

theorem pathIn_insertPath_mono : ∀ (p : List String) (t : Tree) (q : List String),
    PathIn t p → PathIn (insertPath t q) p := by
  intro p
  induction p with
  | nil =>
    intro t q _
    exact PathIn.nil _
  | cons v rest ih =>
    intro t q h
    cases h with
    | cons _ hopt hlook hrest =>
      cases q with
      | nil => exact PathIn.cons v hopt hlook hrest
      | cons w ws =>
        rw [insertPath_cons]
        by_cases hvw : w = v
        · subst hvw
          refine PathIn.cons w ?_ (lookupChild_setChild_self _ _ _) ?_
          · rw [show (Tree.mk (insertOpt t.options w) (setChild t.children w
                (insertPath ((lookupChild t.children w).getD emptyNode) ws))).options =
                insertOpt t.options w from rfl]
            rw [mem_insertOpt]
            exact Or.inl hopt
          · rw [hlook]
            exact ih _ ws hrest
        · refine PathIn.cons v ?_ ?_ hrest
          · rw [show (Tree.mk (insertOpt t.options w) (setChild t.children w
                (insertPath ((lookupChild t.children w).getD emptyNode) ws))).options =
                insertOpt t.options w from rfl]
            rw [mem_insertOpt]
            exact Or.inl hopt
          · rw [show (Tree.mk (insertOpt t.options w) (setChild t.children w
                (insertPath ((lookupChild t.children w).getD emptyNode) ws))).children =
                setChild t.children w
                  (insertPath ((lookupChild t.children w).getD emptyNode) ws) from rfl]
            rw [lookupChild_setChild_ne _ _ _ _ hvw]
            exact hlook

theorem pathIn_foldl_mono {α : Type} (key : α → List String) :
    ∀ (rows : List α) (t : Tree) (p : List String),
      PathIn t p → PathIn (rows.foldl (fun t r => insertPath t (key r)) t) p := by
  intro rows
  induction rows with
  | nil =>
    intro t p h
    exact h
  | cons r rest ih =>
    intro t p h
    exact ih _ p (pathIn_insertPath_mono p t (key r) h)

theorem pathIn_build_of_mem {α : Type} (key : α → List String) :
    ∀ (rows : List α) (t : Tree) (r : α), r ∈ rows →
      PathIn (rows.foldl (fun t r => insertPath t (key r)) t) (key r) := by
  intro rows
  induction rows with
  | nil =>
    intro t r hr
    exact absurd hr (List.not_mem_nil r)
  | cons r0 rest ih =>
    intro t r hr
    rcases List.mem_cons.mp hr with rfl | hr'
    · exact pathIn_foldl_mono key rest _ _ (pathIn_insertPath_self _ _)
    · exact ih _ r hr'

theorem pathIn_sortTree : ∀ (p : List String) (t : Tree),
    PathIn t p ↔ PathIn (sortTree t) p := by
  intro p
  induction p with
  | nil =>
    intro t
    exact ⟨fun _ => PathIn.nil _, fun _ => PathIn.nil _⟩
  | cons v rest ih =>
    intro t
    obtain ⟨opts, ch⟩ := t
    rw [sortTree_mk]
    constructor
    · intro h
      cases h with
      | cons _ hopt hlook hrest =>
        refine PathIn.cons v ?_ ?_ ((ih _).mp hrest)
        · rw [show (Tree.mk (sortOptions opts) (sortChildren ch)).options =
              sortOptions opts from rfl]
          rw [mem_sortOptions]
          exact hopt
        · rw [show (Tree.mk (sortOptions opts) (sortChildren ch)).children =
              sortChildren ch from rfl]
          rw [lookupChild_sortChildren]
          rw [show (Tree.mk opts ch).children = ch from rfl] at hlook
          rw [hlook]
          rfl
    · intro h
      cases h with
      | cons _ hopt hlook hrest =>
        rw [show (Tree.mk (sortOptions opts) (sortChildren ch)).children =
            sortChildren ch from rfl] at hlook
        rw [lookupChild_sortChildren] at hlook
        rw [show (Tree.mk (sortOptions opts) (sortChildren ch)).options =
            sortOptions opts from rfl] at hopt
        rw [mem_sortOptions] at hopt
        cases hc0 : lookupChild ch v with
        | none =>
          rw [hc0] at hlook
          exact absurd hlook (by simp)
        | some c0 =>
          rw [hc0] at hlook
          have hcc := Option.some.inj hlook
          refine PathIn.cons v hopt hc0 ((ih c0).mpr ?_)
          rw [hcc]
          exact hrest

theorem get_options_eq : ∀ (ps : List RawVal) (t : Tree),
    get_options_from_tree t ps = getOptionsStr t (ps.map normStr) := by
  intro ps
  induction ps with
  | nil =>
    intro t
    rfl
  | cons p rest ih =>
    intro t
    simp only [get_options_from_tree, List.map_cons, getOptionsStr]
    cases lookupChild t.children (normStr p) with
    | none => rfl
    | some c => exact ih c

theorem pathIn_take_mem : ∀ (vs : List String) (t : Tree), PathIn t vs →
    ∀ k, k < vs.length → vs.getD k "" ∈ getOptionsStr t (vs.take k) := by
  intro vs
  induction vs with
  | nil =>
    intro t _ k hk
    exact absurd hk (by simp)
  | cons v rest ih =>
    intro t h k hk
    cases h with
    | cons _ hopt hlook hrest =>
      cases k with
      | zero =>
        simpa [getOptionsStr, List.getD] using hopt
      | succ k' =>
        have hk' : k' < rest.length := by simpa using hk
        have := ih _ hrest k' hk'
        simpa [getOptionsStr, hlook, List.getD] using this

theorem getD_map_normStr (r : List RawVal) (k : Nat) (hk : k < r.length) :
    (r.map normStr).getD k "" = normStr (r.getD k .na) := by
  induction r generalizing k with
  | nil => exact absurd hk (by simp)
  | cons x rest ih =>
    cases k with
    | zero => simp [List.getD]
    | succ k' =>
      have hk' : k' < rest.length := by simpa using hk
      simpa [List.getD] using ih k' hk'

/-- C5: for every row a metric tree was built from (six level cells),
walking the row's own values through `get_options_from_tree` yields, at
every prefix of length 0..5, a non-empty options list containing the
row's next normalized level value. -/
theorem C5_path_reachability (rows : List (List RawVal)) (r : List RawVal)
    (hmem : r ∈ rows) (hlen : r.length = 6) :
    ∀ k, k < 6 →
      get_options_from_tree (build_metric_tree_from_df rows) (r.take k) ≠ [] ∧
      normStr (r.getD k .na) ∈
        get_options_from_tree (build_metric_tree_from_df rows) (r.take k) := by
  have hkey : ((r.map normStr).take 6) = r.map normStr := by
    refine List.take_of_length_le ?_
    simp [hlen]
  have hraw : PathIn
      (rows.foldl (fun t row => insertPath t ((row.map normStr).take 6)) emptyNode)
      (r.map normStr) := by
    have := pathIn_build_of_mem (fun row : List RawVal => (row.map normStr).take 6)
      rows emptyNode r hmem
    simp only [] at this
    rwa [hkey] at this
  have htree : PathIn (build_metric_tree_from_df rows) (r.map normStr) :=
    (pathIn_sortTree _ _).mp hraw
  intro k hk
  have hklen : k < (r.map normStr).length := by simp [hlen, hk]
  have hmem2 := pathIn_take_mem _ _ htree k hklen
  have htake : (r.map normStr).take k = (r.take k).map normStr := (List.map_take _ _ _).symm
  rw [htake] at hmem2
  rw [getD_map_normStr r k (by simp [hlen, hk])] at hmem2
  rw [get_options_eq]
  exact ⟨List.ne_nil_of_mem hmem2, hmem2⟩

/-- Witness for C5 on the spec's two-row hierarchy scenario, at the
prefix `("Assets", "Cash")`. -/
theorem C5_path_reachability_witness :
    get_options_from_tree
      (build_metric_tree_from_df
        [[.str "Assets", .str "Cash", .str "", .str "", .str "", .str ""],
         [.str "Assets", .str "Cash", .str "Bank", .str "", .str "", .str ""]])
      (([RawVal.str "Assets", .str "Cash", .str "Bank", .str "", .str "", .str ""]).take 2)
      ≠ [] ∧
    normStr (([RawVal.str "Assets", .str "Cash", .str "Bank", .str "", .str "", .str ""]).getD 2 .na) ∈
      get_options_from_tree
        (build_metric_tree_from_df
          [[.str "Assets", .str "Cash", .str "", .str "", .str "", .str ""],
           [.str "Assets", .str "Cash", .str "Bank", .str "", .str "", .str ""]])
        (([RawVal.str "Assets", .str "Cash", .str "Bank", .str "", .str "", .str ""]).take 2) :=
  C5_path_reachability
    [[.str "Assets", .str "Cash", .str "", .str "", .str "", .str ""],
     [.str "Assets", .str "Cash", .str "Bank", .str "", .str "", .str ""]]
    [.str "Assets", .str "Cash", .str "Bank", .str "", .str "", .str ""]
    (by decide) (by decide) 2 (by decide)

/-!  ## Completeness of the built tree: every full-depth path comes from a row -/

theorem pathIn_insertPath_inv : ∀ (q p : List String) (t : Tree),
    AllNodes OptKeysEq t → p.length = q.length →
    PathIn (insertPath t q) p → PathIn t p ∨ p = q := by
  intro q
  induction q with
  | nil =>
    intro p t _ _ h
    exact Or.inl h
  | cons w ws ih =>
    intro p t hinv hlen h
    cases p with
    | nil => exact absurd hlen (by simp)
    | cons v vs =>
      obtain ⟨hP, hch⟩ := allNodes_inv _ _ hinv
      rw [insertPath_cons] at h
      cases h with
      | cons _ hopt hlook hrest =>
        rw [show (Tree.mk (insertOpt t.options w) (setChild t.children w
            (insertPath ((lookupChild t.children w).getD emptyNode) ws))).options =
            insertOpt t.options w from rfl] at hopt
        rw [show (Tree.mk (insertOpt t.options w) (setChild t.children w
            (insertPath ((lookupChild t.children w).getD emptyNode) ws))).children =
            setChild t.children w
              (insertPath ((lookupChild t.children w).getD emptyNode) ws) from rfl] at hlook
        by_cases hvw : v = w
        · subst hvw
          rw [lookupChild_setChild_self] at hlook
          have hc := Option.some.inj hlook
          have hbaseinv : AllNodes OptKeysEq ((lookupChild t.children v).getD emptyNode) := by
            cases hb : lookupChild t.children v with
            | some c0 => exact hch v c0 (lookupChild_mem _ _ _ hb)
            | none => exact allNodes_optKeysEq_empty
          have hlen' : vs.length = ws.length := by simpa using hlen
          have hrest' :
              PathIn (insertPath ((lookupChild t.children v).getD emptyNode) ws) vs := by
            rw [hc]
            exact hrest
          rcases ih vs _ hbaseinv hlen' hrest' with hin | rfl
          · cases hb : lookupChild t.children v with
            | some c0 =>
              rw [hb] at hin
              left
              refine PathIn.cons v ?_ hb hin
              refine (hP v).mpr ?_
              rw [← lookupChild_isSome_iff, hb]
              rfl
            | none =>
              rw [hb] at hin
              cases hin with
              | nil =>
                have hws : ws = [] := by
                  have h0 : (0 : Nat) = ws.length := by simpa using hlen'
                  exact (List.eq_nil_of_length_eq_zero h0.symm)
                subst hws
                exact Or.inr rfl
              | cons _ hopt2 _ _ =>
                exact absurd hopt2 (by simp [emptyNode, Tree.options])
          · exact Or.inr rfl
        · rw [lookupChild_setChild_ne _ _ _ _ (fun hh => hvw hh.symm)] at hlook
          left
          refine PathIn.cons v ?_ hlook hrest
          rcases (mem_insertOpt _ _ _).mp hopt with h' | h'
          · exact h'
          · exact absurd h' hvw

theorem pathIn_foldl_inv {α : Type} (key : α → List String) (n : Nat) :
    ∀ (rows : List α) (t : Tree) (p : List String),
      AllNodes OptKeysEq t → (∀ r ∈ rows, (key r).length = n) → p.length = n →
      PathIn (rows.foldl (fun t r => insertPath t (key r)) t) p →
      PathIn t p ∨ ∃ r ∈ rows, key r = p := by
  intro rows
  induction rows with
  | nil =>
    intro t p _ _ _ h
    exact Or.inl h
  | cons r0 rest ih =>
    intro t p hinv hkl hpl h
    have hinv' : AllNodes OptKeysEq (insertPath t (key r0)) :=
      allNodes_optKeysEq_insertPath _ _ hinv
    rcases ih (insertPath t (key r0)) p hinv'
        (fun r hr => hkl r (List.mem_cons_of_mem _ hr)) hpl h with hin | ⟨r, hr, hk⟩
    · have hlen : p.length = (key r0).length := by
        rw [hpl, hkl r0 (List.mem_cons_self _ _)]
      rcases pathIn_insertPath_inv (key r0) p t hinv hlen hin with h' | heq
      · exact Or.inl h'
      · exact Or.inr ⟨r0, List.mem_cons_self _ _, heq.symm⟩
    · exact Or.inr ⟨r, List.mem_cons_of_mem _ hr, hk⟩

theorem pathIn_rawBuild_inv {α : Type} (key : α → List String) (n : Nat) (hn : 0 < n)
    (rows : List α) (p : List String)
    (hkl : ∀ r ∈ rows, (key r).length = n) (hpl : p.length = n)
    (h : PathIn (rows.foldl (fun t r => insertPath t (key r)) emptyNode) p) :
    ∃ r ∈ rows, key r = p := by
  rcases pathIn_foldl_inv key n rows emptyNode p allNodes_optKeysEq_empty hkl hpl h with
    hin | hx
  · cases p with
    | nil =>
      rw [List.length_nil] at hpl
      omega
    | cons v vs =>
      cases hin with
      | cons _ hopt2 _ _ =>
        exact absurd hopt2 (by simp [emptyNode, Tree.options])
  · exact hx

theorem pathIn_of_walk : ∀ (vs : List String) (t : Tree),
    AllNodes OptKeysEq t →
    (∀ k, k < vs.length → vs.getD k "" ∈ getOptionsStr t (vs.take k)) →
    PathIn t vs := by
  intro vs
  induction vs with
  | nil =>
    intro t _ _
    exact PathIn.nil t
  | cons v rest ih =>
    intro t hinv hwalk
    obtain ⟨hP, hch⟩ := allNodes_inv _ _ hinv
    have h0 : v ∈ t.options := by
      have := hwalk 0 (by simp)
      simpa [getOptionsStr, List.getD] using this
    have hkeys : v ∈ t.children.map Prod.fst := (hP v).mp h0
    have hsome : (lookupChild t.children v).isSome = true :=
      (lookupChild_isSome_iff _ _).mpr hkeys
    obtain ⟨c, hc⟩ := Option.isSome_iff_exists.mp hsome
    refine PathIn.cons v h0 hc (ih c (hch v c (lookupChild_mem _ _ _ hc)) ?_)
    intro k hk
    have := hwalk (k + 1) (by simpa using hk)
    simpa [getOptionsStr, List.getD, hc] using this

/-!  ## Injectivity of the composite path key on pipe-free cells -/

theorem string_data_append (a b : String) : (a ++ b).data = a.data ++ b.data := by
  cases a
  cases b
  rfl

theorem append_pipe_inj : ∀ (a b rest rest' : List Char),
    '|' ∉ a → '|' ∉ b → a ++ '|' :: rest = b ++ '|' :: rest' →
    a = b ∧ rest = rest' := by
  intro a
  induction a with
  | nil =>
    intro b rest rest' _ hb h
    cases b with
    | nil => simpa using h
    | cons x xs =>
      rw [List.nil_append, List.cons_append] at h
      obtain ⟨h1, _⟩ := List.cons.inj h
      exact absurd (h1 ▸ List.mem_cons_self x xs) hb
  | cons y ys ih =>
    intro b rest rest' ha hb h
    cases b with
    | nil =>
      rw [List.cons_append, List.nil_append] at h
      obtain ⟨h1, _⟩ := List.cons.inj h
      exact absurd (h1 ▸ List.mem_cons_self y ys) ha
    | cons x xs =>
      rw [List.cons_append, List.cons_append] at h
      obtain ⟨h1, h2⟩ := List.cons.inj h
      have hys : '|' ∉ ys := fun hm => ha (List.mem_cons_of_mem _ hm)
      have hxs : '|' ∉ xs := fun hm => hb (List.mem_cons_of_mem _ hm)
      obtain ⟨h3, h4⟩ := ih xs rest rest' hys hxs h2
      exact ⟨by rw [h1, h3], h4⟩

theorem pathKey_inj : ∀ (l1 l2 : List String),
    l1.length = l2.length →
    (∀ s ∈ l1, '|' ∉ s.data) → (∀ s ∈ l2, '|' ∉ s.data) →
    pathKey l1 = pathKey l2 → l1 = l2 := by
  intro l1
  induction l1 with
  | nil =>
    intro l2 hlen _ _ _
    have h0 : (0 : Nat) = l2.length := by simpa using hlen
    exact (List.eq_nil_of_length_eq_zero h0.symm).symm
  | cons x xs ih =>
    intro l2 hlen h1 h2 heq
    cases l2 with
    | nil => simp at hlen
    | cons y ys =>
      cases xs with
      | nil =>
        have hys : ys = [] := by simpa using hlen
        subst hys
        simp only [pathKey] at heq
        rw [heq]
      | cons x2 xs2 =>
        cases ys with
        | nil => simp at hlen
        | cons y2 ys2 =>
          have hdata : x.data ++ '|' :: (pathKey (x2 :: xs2)).data =
              y.data ++ '|' :: (pathKey (y2 :: ys2)).data := by
            have hd := congrArg String.data heq
            rw [show pathKey (x :: x2 :: xs2) = x ++ "|" ++ pathKey (x2 :: xs2) from rfl,
              show pathKey (y :: y2 :: ys2) = y ++ "|" ++ pathKey (y2 :: ys2) from rfl] at hd
            rw [string_data_append, string_data_append,
              string_data_append, string_data_append] at hd
            simpa using hd
          obtain ⟨hxy, hrest⟩ := append_pipe_inj _ _ _ _
            (h1 x (List.mem_cons_self _ _)) (h2 y (List.mem_cons_self _ _)) hdata
          have hx : x = y := string_eq_of_data hxy
          subst hx
          have htail := ih (y2 :: ys2) (by simpa using hlen)
            (fun s hs => h1 s (List.mem_cons_of_mem _ hs))
            (fun s hs => h2 s (List.mem_cons_of_mem _ hs))
            (string_eq_of_data hrest)
          rw [htail]

theorem map_normStr_of_trimmed (r : List String) (ht : ∀ c ∈ r, pyStrip c = c) :
    (r.map RawVal.str).map normStr = r := by
  rw [List.map_map]
  have hcong : ∀ c ∈ r, (normStr ∘ RawVal.str) c = id c := by
    intro c hc
    simp [normStr, ht c hc]
  rw [List.map_congr_left hcong, List.map_id]

theorem key_of_trimmed (r : List String) (hl : r.length = 6) (ht : ∀ c ∈ r, pyStrip c = c) :
    ((r.map RawVal.str).map normStr).take 6 = r := by
  rw [map_normStr_of_trimmed r ht]
  exact List.take_of_length_le (by omega)

/-- C6 counterexample: a pipe inside a level value lets the `'|'`-joined
composite key of a candidate row collide with a different hierarchy row,
so the set-based check passes while the level-by-level cascade walk
fails. -/
theorem C6_counterexample :
    metricPathValid ["a", "b|c", "", "", "", ""] [["a|b", "c", "", "", "", ""]] = true ∧
    ¬ walkFindsRow (treeFromNormalizedRows [["a|b", "c", "", "", "", ""]])
      ["a", "b|c", "", "", "", ""] := by decide

/-- C6 (amended): for normalized rows whose level cells are trimmed and
contain no `'|'`, the set-based composite-key validation of
`validate_csv_hierarchy` agrees with the level-by-level cascade walk
through the tree built from the same normalized hierarchy rows. -/
theorem C6_setcheck_iff_walk (hier : List (List String)) (row : List String)
    (hrl : row.length = 6) (hhl : ∀ r ∈ hier, r.length = 6)
    (hrt : ∀ c ∈ row, pyStrip c = c) (hht : ∀ r ∈ hier, ∀ c ∈ r, pyStrip c = c)
    (hrp : ∀ c ∈ row, '|' ∉ c.data) (hhp : ∀ r ∈ hier, ∀ c ∈ r, '|' ∉ c.data) :
    metricPathValid row hier = true ↔ walkFindsRow (treeFromNormalizedRows hier) row := by
  have hfold : treeFromNormalizedRows hier =
      sortTree ((hier.map (fun r => r.map RawVal.str)).foldl
        (fun t r => insertPath t ((r.map normStr).take 6)) emptyNode) := by
    unfold treeFromNormalizedRows build_metric_tree_from_df
    rfl
  have hwalk_eq : ∀ (t : Tree) (k : Nat),
      get_options_from_tree t ((row.take k).map RawVal.str) =
        getOptionsStr t (row.take k) := by
    intro t k
    rw [get_options_eq, List.map_map]
    have hcong : ∀ c ∈ row.take k, (normStr ∘ RawVal.str) c = id c := by
      intro c hc
      simp [normStr, hrt c (List.mem_of_mem_take hc)]
    rw [List.map_congr_left hcong, List.map_id]
  have hkl : ∀ x ∈ hier.map (fun r => r.map RawVal.str),
      ((x.map normStr).take 6).length = 6 := by
    intro x hx
    rcases List.mem_map.mp hx with ⟨r, hr, rfl⟩
    rw [List.length_take, List.length_map, List.length_map, hhl r hr]
    simp
  constructor
  · intro hset
    have hmemkey : metricPathKey row ∈ hier.map metricPathKey := by
      simpa [metricPathValid, validMetricPaths] using hset
    rcases List.mem_map.mp hmemkey with ⟨r, hr, hkeyeq⟩
    have hreq : r = row := by
      have h6r : r.take 6 = r := List.take_of_length_le (by rw [hhl r hr])
      have h6row : row.take 6 = row := List.take_of_length_le (by rw [hrl])
      refine pathKey_inj r row (by rw [hhl r hr, hrl]) (hhp r hr) hrp ?_
      unfold metricPathKey at hkeyeq
      rw [h6r, h6row] at hkeyeq
      exact hkeyeq
    subst hreq
    have hmem' : r.map RawVal.str ∈ hier.map (fun r => r.map RawVal.str) :=
      List.mem_map_of_mem _ hr
    have hraw := pathIn_build_of_mem (fun x : List RawVal => (x.map normStr).take 6)
      (hier.map (fun r => r.map RawVal.str)) emptyNode _ hmem'
    simp only [] at hraw
    rw [key_of_trimmed r (hhl r hr) (hht r hr)] at hraw
    have htree : PathIn (treeFromNormalizedRows hier) r := by
      rw [hfold]
      exact (pathIn_sortTree _ _).mp hraw
    intro k hk
    rw [hwalk_eq _ k]
    exact pathIn_take_mem _ _ htree k hk
  · intro hwalk
    have hinv : AllNodes OptKeysEq (treeFromNormalizedRows hier) := by
      rw [hfold]
      exact allNodes_optKeysEq_build _ _
    have hpath : PathIn (treeFromNormalizedRows hier) row := by
      refine pathIn_of_walk row _ hinv ?_
      intro k hk
      have hw := hwalk k hk
      rwa [hwalk_eq _ k] at hw
    have hraw : PathIn ((hier.map (fun r => r.map RawVal.str)).foldl
        (fun t r => insertPath t ((r.map normStr).take 6)) emptyNode) row := by
      rw [hfold] at hpath
      exact (pathIn_sortTree _ _).mpr hpath
    obtain ⟨r', hr', hk'⟩ := pathIn_rawBuild_inv
      (fun x : List RawVal => (x.map normStr).take 6) 6 (by omega)
      (hier.map (fun r => r.map RawVal.str)) row hkl hrl hraw
    rcases List.mem_map.mp hr' with ⟨r, hr, rfl⟩
    rw [key_of_trimmed r (hhl r hr) (hht r hr)] at hk'
    subst hk'
    have hmemkey : metricPathKey r ∈ hier.map metricPathKey := List.mem_map_of_mem _ hr
    simpa [metricPathValid, validMetricPaths] using hmemkey

/-- Witness for C6 (amended) on a pipe-free hierarchy: the set check and
the cascade walk agree and both accept the row. -/
theorem C6_setcheck_iff_walk_witness :
    walkFindsRow (treeFromNormalizedRows [["a", "b", "", "", "", ""]])
      ["a", "b", "", "", "", ""] :=
  (C6_setcheck_iff_walk [["a", "b", "", "", "", ""]] ["a", "b", "", "", "", ""]
    (by decide) (by decide) (by decide) (by decide) (by decide) (by decide)).mp (by decide)

end FinMap
